import Mathlib

/-!
Verification development for the chat-spike library (a burst detector over
chat streams).  The Rust sources are embedded shallowly:

* strings are modeled as `List Char` (Rust iterates `char`s, i.e. Unicode
  scalar values, everywhere relevant);
* `f64` arithmetic that stays within exact operations (the decaying
  dictionary: `+`, `*`, `powi`) is modeled over `ℚ`;
* the transcendental surprise function (`math.rs`) is modeled over `ℝ`;
* the one place where IEEE special values matter (the surprise accessor on a
  freshly constructed detector divides 0.0 by 0.0) is modeled with an
  explicit floating-point value type `FP` carrying NaN and infinities;
* machine indices (`usize`) are modeled as `ℕ` (no claim exercises wraparound).
-/

namespace ChatSpike

/-! ## text.rs -/

/-- The `'\0'` character that `space_around_ic` emits as a discard marker. -/
def nullChar : Char := Char.ofNat 0

/-- The sentinel `'𝕊'` used by `derepeat` / `space_around_ic` as the initial
`last_char`. -/
def sentinelChar : Char := '𝕊'

/-- State-passing version of the stateful closure inside `derepeat`
(`text.rs`): `lastChar` and `rep` are the captured `last_char` / `repeat`
variables.  A character is kept while its running repeat count stays
below `n`. -/
def derepeatGo (n : ℕ) : Char → ℕ → List Char → List Char
  | _, _, [] => []
  | lastChar, rep, c :: cs =>
    let rep' := if lastChar = c then rep + 1 else 0
    if rep' < n then c :: derepeatGo n c rep' cs else derepeatGo n c rep' cs

/-- `derepeat` from `text.rs`. -/
def derepeat (text : List Char) (n : ℕ) : List Char :=
  derepeatGo n sentinelChar 0 text

/-- State-passing version of the closure inside `space_around_ic`
(`text.rs`), emitted characters inlined (the source `flat_map`s two
characters per input character and later filters out `'\0'`).  The first
guard is transcribed literally from the source:
`c != 'ㅋ' || c != 'ㅎ' || ...` (a disjunction of inequations).
The source `repeat` counter is `u32`; no claim exercises wraparound, so it
is modeled as `ℕ`. -/
def spaceAroundIcGo : Char → ℕ → List Char → List Char
  | _, _, [] => []
  | lastChar, rep, c :: cs =>
    if c ≠ 'ㅋ' ∨ c ≠ 'ㅎ' ∨ c ≠ 'ㅜ' ∨ c ≠ 'ㅠ' ∨ c ≠ 'ㄷ' ∨ c ≠ '!' ∨ c ≠ '.' ∨ c ≠ ',' ∨ c ≠ '?' then
      let rep' :=
        if lastChar = 'ㅋ' ∨ lastChar = 'ㅎ' ∨ lastChar = 'ㅜ' ∨ lastChar = 'ㅠ' ∨ lastChar = 'ㄷ' ∨ lastChar = '!' ∨ lastChar = '.' ∨ lastChar = ',' ∨ lastChar = '?' then rep + 1
        else 0
      c :: nullChar :: spaceAroundIcGo c rep' cs
    else if 1 ≤ rep then
      c :: ' ' :: spaceAroundIcGo c 0 cs
    else
      c :: nullChar :: spaceAroundIcGo c rep cs

/-- `space_around_ic` from `text.rs`: run the stateful emitter, then drop
the `'\0'` markers (the trailing `.filter(|c| c != &'\0')`). -/
def spaceAroundIc (text : List Char) : List Char :=
  (spaceAroundIcGo sentinelChar 0 text).filter (fun c => c ≠ nullChar)

/-- `normalize` from `text.rs`. -/
def normalize (text : List Char) : List Char :=
  spaceAroundIc (derepeat text 3)

/-- Rust's `slice::windows(n)`: all contiguous subslices of length `n`.
Rust panics when `n = 0`; every use below has `n ≥ 1`, and the model
returns `[]` outside `1 ≤ n ≤ l.length` (for `n > l.length` the Rust
iterator is empty, matching `[]`). -/
def windows (n : ℕ) (l : List Char) : List (List Char) :=
  if 1 ≤ n ∧ n ≤ l.length then (List.range (l.length - n + 1)).map (fun i => (l.drop i).take n)
  else []

/-- Rust's inclusive range `lo..=hi` as a list (empty when `lo > hi`). -/
def rangeIncl (lo hi : ℕ) : List ℕ := List.range' lo (hi + 1 - lo)

/-- Lexicographic comparison of `List Char`, the order `sort_unstable`
uses on `String` (UTF-8 byte order coincides with code-point order). -/
def lexLeB : List Char → List Char → Bool
  | [], _ => true
  | _ :: _, [] => false
  | a :: as, b :: bs => if a < b then true else if b < a then false else lexLeB as bs

/-- The proposition form of `lexLeB`. -/
def lexLe (x y : List Char) : Prop := lexLeB x y = true

instance : DecidableRel lexLe := fun x y => inferInstanceAs (Decidable (lexLeB x y = true))

/-- Rust's `Vec::dedup`: collapse each run of consecutive equal elements
to a single element.  (Rust keeps the first element of each run; since the
elements of a run are equal, dropping the head and keeping the run's
continuation yields the same list, which lets the recursion be
structural.) -/
def rustDedup {α : Type} [DecidableEq α] : List α → List α
  | [] => []
  | [a] => [a]
  | a :: b :: t => if a = b then rustDedup (b :: t) else a :: rustDedup (b :: t)

/-- `unique_char_ngrams` from `text.rs`: n-grams for every `n` in the
inclusive range `min_n.min(len)..=max_n.min(len)`, sorted and deduplicated.
`sort_unstable` is modeled by insertion sort: lexicographic order is a
linear order, so every correct sort produces the same list. -/
def uniqueCharNgrams (s : List Char) (minN maxN : ℕ) : List (List Char) :=
  if s ≠ [] then
    rustDedup (List.insertionSort lexLe
      ((rangeIncl (min minN s.length) (min maxN s.length)).flatMap (fun n => windows n s)))
  else []

/-! ## ring.rs -/

/-- `Ring<T, S>`: `buf.length` plays the role of the const parameter `S`. -/
structure Ring (α : Type) where
  buf : List (Option α)
  offset : ℕ
  size : ℕ

/-- `Ring::new`. -/
def Ring.new (α : Type) (S : ℕ) : Ring α := ⟨List.replicate S none, 0, 0⟩

/-- `Ring::push`: returns the displaced element (`buf[offset].take()`)
together with the updated ring.  Rust indexes `buf[self.offset]`, which for
`S ≥ 1` is always in bounds (`offset < S` is invariant); `getD`/`set` agree
with it there. -/
def Ring.push {α : Type} (r : Ring α) (t : α) : Option α × Ring α :=
  (r.buf.getD r.offset none,
   ⟨r.buf.set r.offset (some t), (r.offset + 1) % r.buf.length, min (r.size + 1) r.buf.length⟩)

/-- The values visited by `RingIterator::next` for `index = 0, 1, ...`:
`None` once `index ≥ size`, otherwise `buf[(offset + index) % size]`.
Only indices `< size` are materialized; the iterator yields `None`
afterwards, which `collect`-style consumption interprets as the end. -/
def Ring.iterVals {α : Type} (r : Ring α) : List (Option α) :=
  (List.range r.size).map (fun i => r.buf.getD ((r.offset + i) % r.size) none)

/-- Iteration as a plain list: a `None` cell would stop a Rust iterator
consumer, hence `takeWhile isSome`. -/
def Ring.toList {α : Type} (r : Ring α) : List α :=
  (r.iterVals.takeWhile fun o => o.isSome).reduceOption

/-- Push a whole list in order. -/
def Ring.pushAll {α : Type} (r : Ring α) (l : List α) : Ring α :=
  l.foldl (fun r a => (Ring.push r a).2) r

/-- For a fresh capacity-`S` ring that received `N` pushes, the index (into
the push sequence) of the most recent push that wrote buffer slot `j`. -/
def lastWriteIdx (N S j : ℕ) : ℕ :=
  if j < N % S then N - N % S + j else N - N % S - S + j

/-- Closed form of the ring state after pushing the whole list `l` into
`Ring::new` with capacity `S`. -/
def modelRing (α : Type) (S : ℕ) (l : List α) : Ring α :=
  ⟨(List.range S).map
      (fun j => if j < min l.length S then l[lastWriteIdx l.length S j]? else none),
   l.length % S, min l.length S⟩

/-! ## dict.rs -/

/-- `TokenEntry`. -/
structure TokenEntry where
  count : ℚ
  last_updated : ℕ
deriving DecidableEq

/-- `MemoryDictionary<L>`; the token map is an association list with unique
keys (insertion order; a `HashMap` in the source, but every operation is
keyed so iteration order never matters: `retain` applies a pointwise
transformation). -/
structure MemoryDictionary (α : Type) where
  tokens : List (α × TokenEntry)
  last_vaccumed_size : ℕ
  last_vaccumed_idx : ℕ
  idx : ℕ
deriving DecidableEq

/-- `MemoryDictionary::default()`. -/
def MemoryDictionary.empty (α : Type) : MemoryDictionary α := ⟨[], 0, 0, 0⟩

/-- `DECAY_L = 1 - 1/L`. -/
def decayL (L : ℕ) : ℚ := 1 - 1 / (L : ℚ)

/-- `SIGMA = 0.3679`. -/
def sigmaFloor : ℚ := 3679 / 10000

/-- `VACUCUME_SKIP_SIZE = 8`. -/
def vaccumeSkipSize : ℕ := 8

/-- `MemoryDictionary::vaccume`: decay every entry forward to the current
index, re-stamp it, and retain it only while its decayed count exceeds
`SIGMA`.  `saturating_sub` is `ℕ` subtraction. -/
def MemoryDictionary.vaccume {α : Type} (L : ℕ) (d : MemoryDictionary α) : MemoryDictionary α :=
  { d with
    tokens := d.tokens.filterMap (fun p =>
      let c := p.2.count * (decayL L) ^ (d.idx - p.2.last_updated)
      if sigmaFloor < c then some (p.1, ⟨c, d.idx⟩) else none)
    last_vaccumed_idx := d.idx }

/-- `MemoryDictionary::vaccume_if_required`. -/
def MemoryDictionary.vaccumeIfRequired {α : Type} (L : ℕ) (d : MemoryDictionary α) :
    MemoryDictionary α :=
  if vaccumeSkipSize < d.tokens.length ∧ d.last_vaccumed_size * 3 < d.tokens.length * 2 then
    let d' := d.vaccume L
    { d' with last_vaccumed_size := d'.tokens.length }
  else d

/-- `Dictionary::observe` for `MemoryDictionary`: set `self.idx`, then
`entry(token).and_modify(count += 1, last_updated = idx).or_insert(1, idx)`,
then `vaccume_if_required`.  Note the `and_modify` arm adds 1 to the stored
count *without* decaying it across the gap since `last_updated`. -/
def MemoryDictionary.observe {α : Type} [DecidableEq α] (L : ℕ) (d : MemoryDictionary α)
    (token : α) (i : ℕ) : MemoryDictionary α :=
  let d : MemoryDictionary α := { d with idx := i }
  let d : MemoryDictionary α :=
    if (d.tokens.find? (fun p => p.1 = token)).isSome then
      { d with tokens := d.tokens.map (fun p =>
          if p.1 = token then (p.1, ⟨p.2.count + 1, d.idx⟩) else p) }
    else
      { d with tokens := d.tokens ++ [(token, ⟨1, d.idx⟩)] }
  d.vaccumeIfRequired L

/-- `Dictionary::count` for `MemoryDictionary`: lazy decay at read time. -/
def MemoryDictionary.count {α : Type} [DecidableEq α] (L : ℕ) (d : MemoryDictionary α)
    (token : α) : ℚ :=
  match d.tokens.find? (fun p => p.1 = token) with
  | some p => p.2.count * (decayL L) ^ (d.idx - p.2.last_updated)
  | none => 0

/-! ## math.rs: the Poisson tail surprise function, over ℝ

`f64` transcendental arithmetic is modeled by exact real arithmetic.
`Real.log` agrees with `f64::ln` on positive arguments; every logarithm
taken in the proofs below is shown to have a positive argument in the
regime in which it is evaluated. -/

/-- `P(X ≤ n)` for `X ~ Poisson(lam)`: statrs's `Poisson::cdf` at an
integer argument (mathematically `e^{-λ} Σ_{i≤n} λ^i/i!`). -/
noncomputable def poissonCDF (lam : ℝ) (n : ℕ) : ℝ :=
  Real.exp (-lam) * ∑ i ∈ Finset.range (n + 1), lam ^ i / (Nat.factorial i)

/-- statrs's `DiscreteCDF::sf`, defined as `1 - cdf(n)`, i.e. the *strict*
survival function `P(X > n)`. -/
noncomputable def poissonSF (lam : ℝ) (n : ℕ) : ℝ := 1 - poissonCDF lam n

/-- The complementary error function
`erfc x = (2/√π) ∫_x^∞ e^{-t²} dt` used by the normal-approximation
branch. -/
noncomputable def erfc (x : ℝ) : ℝ :=
  2 / Real.sqrt Real.pi * ∫ t in Set.Ioi x, Real.exp (-t ^ 2)

/-- `neg_ln_poisson_tail` from `math.rs`, for finite arguments.
`k.ceil() as u64` is `⌈k⌉₊` (the `as u64` cast saturates negative values
at 0, as does `Nat.ceil`; saturation at `u64::MAX` is not modeled — no
claim evaluates `k ≥ 2^64`).  The exact branch calls
`Poisson::new(lambda).unwrap()`, which panics for `λ ≤ 0`; this function
gives the value on the non-panicking domain and `fpNegLnPoissonTail`
below accounts for the panic.  The source's saddle-point `let` bindings
`s = k/λ`, `t = √(2λ(s-1-ln s))`, `w = t + (1/s-1)/t` are inlined. -/
noncomputable def neg_ln_poisson_tail (k lam : ℝ) : ℝ :=
  if lam < 20 then -Real.log (max 1e-308 (poissonSF lam ⌈k⌉₊))
  else if k < lam ∨ |k - lam| ≤ 4 * Real.sqrt lam then
    -Real.log (max 1e-308 (0.5 * erfc ((k - lam + 0.5) / Real.sqrt lam * (Real.sqrt 2)⁻¹)))
  else
    -(-(lam * (k / lam - 1 - Real.log (k / lam))) -
      Real.log (Real.sqrt (2 * lam * (k / lam - 1 - Real.log (k / lam))) +
        (1 / (k / lam) - 1) / Real.sqrt (2 * lam * (k / lam - 1 - Real.log (k / lam)))) -
      0.5 * Real.log (2 * Real.pi * k))

/-! ## IEEE-754 special values for the `current_surprise` dataflow -/

/-- A model of `f64` just rich enough for the division-by-zero path of
`SpikeDetector::current_surprise`: finite values are exact reals; NaN and
the two infinities are explicit.  Signed zero and rounding are not
modeled (the paths proved about only produce `+0.0` and exact small
values). -/
inductive FP where
  | nan : FP
  | inf : FP
  | ninf : FP
  | fin (x : ℝ) : FP

/-- IEEE-754 multiplication on the modeled values. -/
noncomputable def fpMul : FP → FP → FP
  | FP.nan, _ => FP.nan
  | _, FP.nan => FP.nan
  | FP.inf, FP.inf => FP.inf
  | FP.inf, FP.ninf => FP.ninf
  | FP.ninf, FP.inf => FP.ninf
  | FP.ninf, FP.ninf => FP.inf
  | FP.inf, FP.fin x => if x = 0 then FP.nan else if 0 < x then FP.inf else FP.ninf
  | FP.fin x, FP.inf => if x = 0 then FP.nan else if 0 < x then FP.inf else FP.ninf
  | FP.ninf, FP.fin x => if x = 0 then FP.nan else if 0 < x then FP.ninf else FP.inf
  | FP.fin x, FP.ninf => if x = 0 then FP.nan else if 0 < x then FP.ninf else FP.inf
  | FP.fin x, FP.fin y => FP.fin (x * y)

/-- IEEE-754 division (a zero divisor is treated as `+0.0`, which is the
only zero the modeled code produces): in particular `0.0 / 0.0 = NaN` and
`x / 0.0 = ±∞` for finite `x ≠ 0`. -/
noncomputable def fpDiv : FP → FP → FP
  | FP.nan, _ => FP.nan
  | _, FP.nan => FP.nan
  | FP.inf, FP.inf => FP.nan
  | FP.inf, FP.ninf => FP.nan
  | FP.ninf, FP.inf => FP.nan
  | FP.ninf, FP.ninf => FP.nan
  | FP.inf, FP.fin y => if 0 ≤ y then FP.inf else FP.ninf
  | FP.ninf, FP.fin y => if 0 ≤ y then FP.ninf else FP.inf
  | FP.fin _, FP.inf => FP.fin 0
  | FP.fin _, FP.ninf => FP.fin 0
  | FP.fin x, FP.fin y =>
    if y = 0 then (if x = 0 then FP.nan else if 0 < x then FP.inf else FP.ninf)
    else FP.fin (x / y)

/-- `neg_ln_poisson_tail` on IEEE values; `none` models the panic of
`Poisson::new(lambda).unwrap()` in the exact branch (statrs rejects
`λ ≤ 0`, `-∞` and NaN).  Every comparison against NaN is false, so a NaN
`lambda` falls through both guards into the saddle-point branch, whose
arithmetic propagates NaN.  Case rationale (IEEE evaluation of the source
expressions):
* `(fin, nan)`, `(nan, nan)`, `(inf, nan)`, `(ninf, nan)`: saddle branch on
  NaN `λ`, all operations propagate NaN;
* `(nan, fin λ)`: `λ < 20` holds, `(NaN).ceil() as u64 = 0`, so the exact
  branch evaluates at threshold 0 (or panics for `λ ≤ 0`); for `λ ≥ 20`
  both guards are false on a NaN `k` and the saddle branch yields NaN;
* `(_, ninf)`: `-∞ < 20`, and `Poisson::new(-∞)` panics;
* `(fin, inf)`, `(ninf, inf)`: `k < ∞` holds, the normal branch computes
  `z·(1/√2) = NaN` (`-∞/∞`), `erfc(NaN) = NaN`, and `f64::max` discards
  the NaN, giving `-ln(1e-308)`;
* `(nan, inf)`, `(inf, inf)`: both guards false, saddle branch gives NaN;
* `(inf, fin λ)`: for `λ < 20`, `(∞).ceil() as u64` saturates at
  `u64::MAX = 2^64 - 1`; for `λ ≥ 20` the saddle branch computes
  `s = ∞`, `s - 1 - ln s = ∞ - ∞ = NaN`;
* `(ninf, fin λ)`: for `λ < 20` the cast saturates at 0; for `λ ≥ 20` the
  normal branch gets `z·(1/√2) = -∞`, `erfc(-∞) = 2`, `p = 0.5 · 2`. -/
noncomputable def fpNegLnPoissonTail : FP → FP → Option FP
  | FP.fin kr, FP.fin lr =>
    if lr < 20 ∧ lr ≤ 0 then none else some (FP.fin (neg_ln_poisson_tail kr lr))
  | _, FP.nan => some FP.nan
  | FP.nan, FP.fin lr =>
    if lr < 20 then
      (if 0 < lr then some (FP.fin (-Real.log (max 1e-308 (poissonSF lr 0)))) else none)
    else some FP.nan
  | _, FP.ninf => none
  | FP.nan, FP.inf => some FP.nan
  | FP.inf, FP.inf => some FP.nan
  | FP.fin _, FP.inf => some (FP.fin (-Real.log 1e-308))
  | FP.ninf, FP.inf => some (FP.fin (-Real.log 1e-308))
  | FP.inf, FP.fin lr =>
    if lr < 20 then
      (if 0 < lr then some (FP.fin (-Real.log (max 1e-308 (poissonSF lr (2 ^ 64 - 1)))))
       else none)
    else some FP.nan
  | FP.ninf, FP.fin lr =>
    if lr < 20 then
      (if 0 < lr then some (FP.fin (-Real.log (max 1e-308 (poissonSF lr 0)))) else none)
    else some (FP.fin (-Real.log (max 1e-308 (0.5 * 2))))

/-! ## spike.rs: detector state, thresholds, chat window -/

/-- `Phase` from `spike.rs`. -/
inductive Phase where
  | idle : Phase
  | inSpike : Phase
deriving DecidableEq

/-- `SpikeDetector<S, L>` state; the const parameters `S`, `L` are passed
to the operations that use them.  Timestamps are opaque reals here. -/
structure SpikeDetector where
  dur_s : ℝ
  dur_l : ℝ
  start_t : ℝ
  end_t : ℝ
  last_ts : Option ℝ
  phase : Phase

/-- `SpikeDetector::default()`: durations 0, thresholds `(2.5, 1.25)`,
no last timestamp, `Idle`. -/
noncomputable def SpikeDetector.default : SpikeDetector :=
  ⟨0, 0, 2.5, 1.25, none, Phase.idle⟩

/-- `SpikeDetector::with_threshold`: stores both fields, with no
validation of any kind. -/
noncomputable def SpikeDetector.withThreshold (d : SpikeDetector) (startT endT : ℝ) :
    SpikeDetector :=
  { d with start_t := startT, end_t := endT }

/-- `let λ_null = self.dur_s * (L as f64) / self.dur_l;` from
`current_surprise`, with IEEE semantics. -/
noncomputable def lambdaNull (L : ℕ) (d : SpikeDetector) : FP :=
  fpDiv (fpMul (FP.fin d.dur_s) (FP.fin (L : ℝ))) (FP.fin d.dur_l)

/-- `SpikeDetector::current_surprise` with IEEE semantics; `none` would be
a panic. -/
noncomputable def currentSurpriseFP (S L : ℕ) (d : SpikeDetector) : Option FP :=
  fpNegLnPoissonTail (FP.fin (S : ℝ)) (lambdaNull L d)

/-- `ChatCache<D>`. -/
structure ChatCache (D : Type) where
  chat : List Char
  data : Option D

/-- `ChatWindow<S, L, D>`; `S` is the ring capacity, fixed at
construction. -/
structure ChatWindow (D : Type) where
  recent_chats : Ring (ChatCache D)
  ngram_range : ℕ × ℕ
  last_chat_idx : ℕ

/-- `ChatWindow::default()` with capacity `S` (its `Ring` field defaults
to `Ring::new`), `ngram_range (1, 4)`, index 0. -/
def ChatWindow.default (D : Type) (S : ℕ) : ChatWindow D :=
  ⟨Ring.new _ S, (1, 4), 0⟩

/-- `ChatWindow::with_ngram_range`: stores the pair, with no validation. -/
def ChatWindow.withNgramRange {D : Type} (w : ChatWindow D) (minN maxN : ℕ) : ChatWindow D :=
  { w with ngram_range := (minN, maxN) }

/-- `ChatWindow::push_with_data_and_dict`: bump the logical message
index, normalize the message, tokenize it into deduplicated character
n-grams over the configured range, `observe` each resulting token once at
the new index, and push the normalized text into the ring. -/
def ChatWindow.pushWithDataAndDict {D : Type} (L : ℕ) (w : ChatWindow D) (chat : List Char)
    (data : Option D) (dict : MemoryDictionary (List Char)) :
    ChatWindow D × MemoryDictionary (List Char) :=
  let idx := w.last_chat_idx + 1
  let chatN := normalize chat
  let tokens := uniqueCharNgrams chatN w.ngram_range.1 w.ngram_range.2
  let dict' := tokens.foldl (fun d t => MemoryDictionary.observe L d t idx) dict
  ({ w with recent_chats := (Ring.push w.recent_chats ⟨chatN, data⟩).2, last_chat_idx := idx },
   dict')

/-- The exact sequence of tokens `push_with_data_and_dict` records in the
dictionary for a given message (each observed once, at the new logical
index). -/
def observedTokens (chat : List Char) (minN maxN : ℕ) : List (List Char) :=
  uniqueCharNgrams (normalize chat) minN maxN

/-! ## Helper lemmas about `space_around_ic` -/

/-- The first guard of `space_around_ic` is a disjunction of *inequations*
(`c != 'ㅋ' || c != 'ㅎ' || ...`), so it holds for every character. -/
theorem spaceAroundIc_guard_true (c : Char) :
    c ≠ 'ㅋ' ∨ c ≠ 'ㅎ' ∨ c ≠ 'ㅜ' ∨ c ≠ 'ㅠ' ∨ c ≠ 'ㄷ' ∨ c ≠ '!' ∨ c ≠ '.' ∨ c ≠ ',' ∨ c ≠ '?' := by
  by_cases h : c = 'ㅋ'
  · subst h
    exact Or.inr (Or.inl (by decide))
  · exact Or.inl h

/-- Because the guard always holds, the emitter only ever takes the first
branch: it emits each input character followed by the `'\0'` marker,
independently of the carried state. -/
theorem spaceAroundIcGo_eq (l : List Char) :
    ∀ lastChar rep, spaceAroundIcGo lastChar rep l = l.flatMap (fun c => [c, nullChar]) := by
  induction l with
  | nil => intro lastChar rep; rfl
  | cons c cs ih =>
    intro lastChar rep
    rw [spaceAroundIcGo, if_pos (spaceAroundIc_guard_true c)]
    simp [ih, List.flatMap_cons]

/-- `space_around_ic` never inserts a separator: it is the identity up to
removing `'\0'` characters from the input. -/
theorem spaceAroundIc_eq_filter (l : List Char) :
    spaceAroundIc l = l.filter (fun c => c ≠ nullChar) := by
  rw [spaceAroundIc, spaceAroundIcGo_eq]
  induction l with
  | nil => rfl
  | cons c cs ih =>
    by_cases h : c = nullChar
    · subst h; simpa using ih
    · have h0 : ¬ c = Char.ofNat 0 := by simpa [nullChar] using h
      simp only [List.flatMap_cons, List.filter_append, List.filter_cons, ih]
      simp [h0, nullChar]

/-! ## Ring: closed form of the state after a sequence of pushes -/

theorem mod_succ_cases (N S : ℕ) (hS : 1 ≤ S) :
    ((N + 1) % S = N % S + 1 ∧ N % S + 1 < S) ∨ ((N + 1) % S = 0 ∧ N % S + 1 = S) := by
  have h1 : N % S < S := Nat.mod_lt _ hS
  have h2 : (N + 1) % S = (N % S + 1) % S := (Nat.mod_add_mod N S 1).symm
  rcases Nat.lt_or_ge (N % S + 1) S with h | h
  · exact Or.inl ⟨h2.trans (Nat.mod_eq_of_lt h), h⟩
  · have h3 : N % S + 1 = S := le_antisymm (Nat.succ_le_of_lt h1) h
    exact Or.inr ⟨h2.trans (by rw [h3, Nat.mod_self]), h3⟩

theorem sub_mod_ge (N S : ℕ) (hS : 1 ≤ S) (h : S ≤ N) : S ≤ N - N % S := by
  have h1 := Nat.div_add_mod N S
  have h2 : 1 ≤ N / S := (Nat.one_le_div_iff hS).mpr h
  have h3 : S * 1 ≤ S * (N / S) := Nat.mul_le_mul_left S h2
  omega

theorem lastWriteIdx_lt (N S j : ℕ) (hS : 1 ≤ S) (hj : j < min N S) : lastWriteIdx N S j < N := by
  have hmN : N % S ≤ N := Nat.mod_le N S
  have hmS : N % S < S := Nat.mod_lt _ hS
  rcases Nat.lt_or_ge N S with hNS | hNS
  · have hm : N % S = N := Nat.mod_eq_of_lt hNS
    unfold lastWriteIdx
    split_ifs <;> omega
  · have hge : S ≤ N - N % S := sub_mod_ge N S hS hNS
    unfold lastWriteIdx
    split_ifs <;> omega

theorem lastWriteIdx_succ (N S j : ℕ) (hS : 1 ≤ S) (hje : j ≠ N % S) (hj : j < min N S) :
    lastWriteIdx (N + 1) S j = lastWriteIdx N S j := by
  have hmN : N % S ≤ N := Nat.mod_le N S
  have hmS : N % S < S := Nat.mod_lt _ hS
  rcases Nat.lt_or_ge N S with hNS | hNS
  · have hm : N % S = N := Nat.mod_eq_of_lt hNS
    rcases mod_succ_cases N S hS with ⟨he, hlt⟩ | ⟨he, heq⟩ <;>
      · unfold lastWriteIdx
        rw [he]
        split_ifs <;> omega
  · have hge : S ≤ N - N % S := sub_mod_ge N S hS hNS
    rcases mod_succ_cases N S hS with ⟨he, hlt⟩ | ⟨he, heq⟩ <;>
      · unfold lastWriteIdx
        rw [he]
        split_ifs <;> omega

theorem lastWriteIdx_offset (N S : ℕ) (hS : 1 ≤ S) (hNS : S ≤ N) :
    lastWriteIdx N S (N % S) = N - S := by
  have hmN : N % S ≤ N := Nat.mod_le N S
  have hge : S ≤ N - N % S := sub_mod_ge N S hS hNS
  unfold lastWriteIdx
  split_ifs <;> omega

theorem lastWriteIdx_append (N S : ℕ) (hS : 1 ≤ S) :
    lastWriteIdx (N + 1) S (N % S) = N := by
  have hmN : N % S ≤ N := Nat.mod_le N S
  rcases mod_succ_cases N S hS with ⟨he, hlt⟩ | ⟨he, heq⟩ <;>
    · unfold lastWriteIdx
      rw [he]
      split_ifs <;> omega

theorem ring_new_eq_model (α : Type) (S : ℕ) : Ring.new α S = modelRing α S [] := by
  unfold Ring.new modelRing
  rw [Ring.mk.injEq]
  refine ⟨?_, by simp, by simp⟩
  apply List.ext_getElem (by simp)
  intro n h1 h2
  simp [List.getElem_replicate, List.getElem_map, List.getElem_range]

theorem push_model_snd (α : Type) (S : ℕ) (hS : 1 ≤ S) (l : List α) (a : α) :
    (Ring.push (modelRing α S l) a).2 = modelRing α S (l ++ [a]) := by
  have hmN : l.length % S ≤ l.length := Nat.mod_le _ S
  have hmS : l.length % S < S := Nat.mod_lt _ hS
  unfold Ring.push modelRing
  rw [Ring.mk.injEq]
  refine ⟨?_, ?_, ?_⟩
  · apply List.ext_getElem (by simp)
    intro j hj1 hj2
    have hjS : j < S := by simpa using hj1
    rw [List.getElem_set]
    simp only [List.getElem_map, List.getElem_range, List.length_append, List.length_singleton]
    by_cases hje : l.length % S = j
    · subst hje
      rw [if_pos (by omega : l.length % S < min (l.length + 1) S)]
      rw [lastWriteIdx_append _ _ hS]
      rw [List.getElem?_append_right (le_refl _)]
      simp
    · rw [if_neg hje]
      by_cases hj : j < min l.length S
      · have hj' : j < min (l.length + 1) S := by omega
        rw [if_pos hj, if_pos hj']
        rw [lastWriteIdx_succ _ _ _ hS (fun h => hje h.symm) hj]
        rw [List.getElem?_append_left (lastWriteIdx_lt _ _ _ hS hj)]
      · have hj' : ¬ j < min (l.length + 1) S := by
          rcases Nat.lt_or_ge l.length S with hNS | hNS
          · have hm : l.length % S = l.length := Nat.mod_eq_of_lt hNS
            omega
          · omega
        rw [if_neg hj, if_neg hj']
  · simp only [List.length_map, List.length_range, List.length_append, List.length_singleton]
    exact Nat.mod_add_mod l.length S 1
  · simp only [List.length_map, List.length_range, List.length_append, List.length_singleton]
    omega

theorem pushAll_model (α : Type) (S : ℕ) (hS : 1 ≤ S) (l : List α) :
    Ring.pushAll (Ring.new α S) l = modelRing α S l := by
  induction l using List.reverseRecOn with
  | nil => exact ring_new_eq_model α S
  | append_singleton l a ih =>
    unfold Ring.pushAll at ih ⊢
    rw [List.foldl_append, List.foldl_cons, List.foldl_nil, ih, push_model_snd α S hS]

theorem iter_index (N S i : ℕ) (hS : 1 ≤ S) (hi : i < min N S) :
    (N % S + i) % min N S < min N S ∧
      lastWriteIdx N S ((N % S + i) % min N S) = N - min N S + i := by
  have hmN : N % S ≤ N := Nat.mod_le N S
  have hmS : N % S < S := Nat.mod_lt _ hS
  rcases Nat.lt_or_ge N S with hNS | hNS
  · have hm : N % S = N := Nat.mod_eq_of_lt hNS
    have hmin : min N S = N := by omega
    have hij : (N % S + i) % min N S = i := by
      rw [hm, hmin, Nat.add_mod_left, Nat.mod_eq_of_lt (by omega)]
    rw [hij]
    refine ⟨by omega, ?_⟩
    unfold lastWriteIdx
    split_ifs <;> omega
  · have hge : S ≤ N - N % S := sub_mod_ge N S hS hNS
    have hmin : min N S = S := by omega
    rw [hmin] at hi ⊢
    rcases Nat.lt_or_ge (N % S + i) S with hlt | hle
    · have hij : (N % S + i) % S = N % S + i := Nat.mod_eq_of_lt hlt
      rw [hij]
      refine ⟨by omega, ?_⟩
      unfold lastWriteIdx
      split_ifs <;> omega
    · have hij : (N % S + i) % S = N % S + i - S := by
        rw [Nat.mod_eq_sub_mod hle, Nat.mod_eq_of_lt (by omega)]
      rw [hij]
      refine ⟨by omega, ?_⟩
      unfold lastWriteIdx
      split_ifs <;> omega

theorem model_iterVals (α : Type) (S : ℕ) (hS : 1 ≤ S) (l : List α) :
    (modelRing α S l).iterVals = (l.drop (l.length - min l.length S)).map some := by
  unfold Ring.iterVals modelRing
  apply List.ext_getElem
  · simp [List.length_drop]
    omega
  · intro i h1 h2
    have hi : i < min l.length S := by simpa using h1
    obtain ⟨hjlt, hjval⟩ := iter_index l.length S i hS hi
    simp only [List.getElem_map, List.getElem_range]
    rw [List.getD_eq_getElem?_getD]
    rw [List.getElem?_map]
    rw [List.getElem?_range (by omega : (l.length % S + i) % min l.length S < S)]
    simp only [Option.map_some', Option.getD_some]
    rw [if_pos hjlt, hjval]
    rw [List.getElem_drop]
    rw [List.getElem?_eq_getElem (by omega)]

theorem model_toList (α : Type) (S : ℕ) (hS : 1 ≤ S) (l : List α) :
    (modelRing α S l).toList = l.drop (l.length - S) := by
  rw [Ring.toList, model_iterVals α S hS l]
  rw [List.takeWhile_map]
  rw [List.takeWhile_eq_self_iff.mpr (by intro x _; rfl)]
  have h1 : ∀ xs : List α, (xs.map some).reduceOption = xs := by
    intro xs
    induction xs with
    | nil => rfl
    | cons x xs ih => simp only [List.map_cons, List.reduceOption_cons_of_some, ih]
  rw [h1]
  congr 1
  omega

/-! ## Claim theorems: C1, C2, C9, C10 -/

/-- Claim C1 (code-bug evidence).  With `L = 2`, observing the same token at
logical indices 0 and then 2 leaves `count(token) = 2`: the `and_modify` arm
of `observe` adds 1 to the stored count and re-stamps `last_updated`
*without* first decaying the count across the gap, whereas the claimed
behaviour (decay forward, then add 1) would give
`1 + (1 - 1/2)^2 * 1 = 5/4`. -/
theorem c1_observe_does_not_decay :
    MemoryDictionary.count 2
        (MemoryDictionary.observe 2
          (MemoryDictionary.observe 2 (MemoryDictionary.empty ℕ) 0 0) 0 2) 0 = 2 ∧
      1 + decayL 2 ^ 2 * 1 = (5 : ℚ) / 4 ∧ (2 : ℚ) ≠ 5 / 4 := by
  refine ⟨?_, by norm_num [decayL], by norm_num⟩
  norm_num [MemoryDictionary.count, MemoryDictionary.observe, MemoryDictionary.vaccumeIfRequired,
    MemoryDictionary.vaccume, MemoryDictionary.empty, vaccumeSkipSize, decayL, List.find?]

/-- Claim C2 (code-bug evidence).  `space_around_ic` never inserts a
separator: its first guard `c != 'ㅋ' || c != 'ㅎ' || ...` is a disjunction
of inequations and therefore always true, so the function is the identity
up to deleting `'\0'`; in particular `normalize` leaves `"ㅋㅋ안"`
unchanged, although the claim requires a separator after the `ㅋ`-run that
is followed by the different character `안`. -/
theorem c2_normalize_inserts_no_separator :
    (∀ l : List Char, spaceAroundIc l = l.filter (fun c => c ≠ nullChar)) ∧
      normalize ['ㅋ', 'ㅋ', '안'] = ['ㅋ', 'ㅋ', '안'] :=
  ⟨spaceAroundIc_eq_filter, by decide⟩

/-- Claim C9.  Pushing any list `l` into a fresh capacity-`S` ring
(`S ≥ 1`) and iterating yields exactly the last `min (length l) S` items in
insertion order: `drop (length l - S) l`.  This covers all three cases of
the claim (`N > S`, `N ≤ S`, empty). -/
theorem c9_ring_iteration_yields_last_S {α : Type} (S : ℕ) (l : List α) (hS : 1 ≤ S) :
    (Ring.pushAll (Ring.new α S) l).toList = l.drop (l.length - S) := by
  rw [pushAll_model α S hS l, model_toList α S hS l]

/-- Witness for C9 at the spec's concrete case: capacity 3, pushes
1,2,3,4, iteration [2,3,4]. -/
theorem c9_ring_iteration_yields_last_S_witness :
    1 ≤ 3 ∧ (Ring.pushAll (Ring.new ℕ 3) [1, 2, 3, 4]).toList = [2, 3, 4] :=
  ⟨by decide, (c9_ring_iteration_yields_last_S 3 [1, 2, 3, 4] (by decide)).trans (by decide)⟩

/-- Claim C10.  `Ring::push` returns the displaced element: `some` of the
oldest currently-held element (the head of the iteration order) exactly
when the ring already holds `S` items, and `none` otherwise. -/
theorem c10_push_returns_displaced_oldest {α : Type} (S : ℕ) (l : List α) (a : α)
    (hS : 1 ≤ S) :
    ((Ring.push (Ring.pushAll (Ring.new α S) l) a).1.isSome ↔ S ≤ l.length) ∧
      (Ring.push (Ring.pushAll (Ring.new α S) l) a).1 =
        if S ≤ l.length then (Ring.pushAll (Ring.new α S) l).toList.head? else none := by
  rw [pushAll_model α S hS l]
  have hmS : l.length % S < S := Nat.mod_lt _ hS
  have hmN : l.length % S ≤ l.length := Nat.mod_le _ S
  have hfst : (Ring.push (modelRing α S l) a).1
      = if S ≤ l.length then l[l.length - S]? else none := by
    simp only [Ring.push, modelRing]
    rw [List.getD_eq_getElem?_getD, List.getElem?_map, List.getElem?_range hmS]
    simp only [Option.map_some', Option.getD_some]
    rcases Nat.lt_or_ge l.length S with hNS | hNS
    · have hm : l.length % S = l.length := Nat.mod_eq_of_lt hNS
      rw [if_neg (by omega), if_neg (by omega)]
    · rw [if_pos (by omega), lastWriteIdx_offset _ _ hS hNS, if_pos hNS]
  constructor
  · rw [hfst]
    rcases Nat.lt_or_ge l.length S with hNS | hNS
    · rw [if_neg (by omega)]
      simp only [Option.isSome_none, Bool.false_eq_true, false_iff]
      omega
    · rw [if_pos hNS, List.getElem?_eq_getElem (by omega)]
      simp [hNS]
  · rw [hfst, model_toList α S hS l]
    rcases Nat.lt_or_ge l.length S with hNS | hNS
    · rw [if_neg (by omega), if_neg (by omega)]
    · rw [if_pos hNS, if_pos hNS, List.head?_drop]

/-- Witness for C10: capacity 2, pushes 5,6,7; the next push displaces 6,
the oldest retained element. -/
theorem c10_push_returns_displaced_oldest_witness :
    1 ≤ 2 ∧
      (((Ring.push (Ring.pushAll (Ring.new ℕ 2) [5, 6, 7]) 9).1.isSome ↔ 2 ≤ [5, 6, 7].length) ∧
        (Ring.push (Ring.pushAll (Ring.new ℕ 2) [5, 6, 7]) 9).1 =
          if 2 ≤ [5, 6, 7].length then (Ring.pushAll (Ring.new ℕ 2) [5, 6, 7]).toList.head?
          else none) :=
  ⟨by decide, c10_push_returns_displaced_oldest 2 [5, 6, 7] 9 (by decide)⟩

/-! ## Claim theorems: C3, C5 -/

/-- Claim C3 counterexample.  On a freshly constructed detector the
implied rate `λ_null = dur_s * (L as f64) / dur_l = 0.0 * L / 0.0`
evaluates to NaN (shown with `L = 2`), not to 0 as the claim states. -/
theorem c3_fresh_lambda_is_nan_not_zero :
    lambdaNull 2 SpikeDetector.default = FP.nan ∧ FP.nan ≠ FP.fin 0 := by
  constructor
  · simp [lambdaNull, SpikeDetector.default, fpMul, fpDiv]
  · intro h
    exact FP.noConfusion h

/-- Claim C3 amended.  Reading the surprise accessor on a freshly
constructed detector (both decayed durations 0) does not panic and does
not trap on the division: `λ_null` evaluates to NaN (`0·L/0`), every
regime guard of `neg_ln_poisson_tail` compares false against NaN, the
saddle-point branch propagates NaN, and the accessor returns NaN — it is
not an evaluation at `λ = 0` (which would panic in
`Poisson::new(0).unwrap()`). -/
theorem c3_fresh_surprise_returns_nan (S L : ℕ) :
    currentSurpriseFP S L SpikeDetector.default = some FP.nan := by
  have h : lambdaNull L SpikeDetector.default = FP.nan := by
    simp [lambdaNull, SpikeDetector.default, fpMul, fpDiv]
  rw [currentSurpriseFP, h]
  rfl

/-- Claim C5 counterexample.  Construction does not fail closed:
`with_threshold 1 2` (i.e. `start_t ≤ end_t`) produces a detector
instance carrying exactly those thresholds, and `with_ngram_range 4 1`
(i.e. `max_n < min_n`) produces a window instance carrying exactly that
range — no invalid configuration is rejected at construction time. -/
theorem c5_invalid_construction_succeeds :
    ((SpikeDetector.default.withThreshold 1 2).start_t = 1 ∧
        (SpikeDetector.default.withThreshold 1 2).end_t = 2 ∧ (1 : ℝ) ≤ 2) ∧
      (((ChatWindow.default Unit 3).withNgramRange 4 1).ngram_range = (4, 1) ∧ 1 < 4) :=
  ⟨⟨rfl, rfl, by norm_num⟩, rfl, by norm_num⟩

/-- Claim C5 amended.  The constructors perform no validation at all:
`with_threshold` and `with_ngram_range` are total and store their
arguments verbatim, whatever they are (including `start_t ≤ end_t` and
`max_n < min_n`); any misuse can only surface at first use. -/
theorem c5_construction_is_unvalidated (s e : ℝ) (a b : ℕ) (D : Type) (S : ℕ) :
    (SpikeDetector.default.withThreshold s e).start_t = s ∧
      (SpikeDetector.default.withThreshold s e).end_t = e ∧
      ((ChatWindow.default D S).withNgramRange a b).ngram_range = (a, b) :=
  ⟨rfl, rfl, rfl⟩

/-! ## Lemmas for `unique_char_ngrams` and claim C8 -/

theorem lexLeB_total (x y : List Char) : lexLeB x y = true ∨ lexLeB y x = true := by
  induction x generalizing y with
  | nil => left; rfl
  | cons a as ih =>
    cases y with
    | nil => right; rfl
    | cons b bs =>
      rcases lt_trichotomy a b with h | h | h
      · left; simp [lexLeB, h]
      · subst h
        rcases ih bs with h2 | h2
        · left; simp [lexLeB, lt_irrefl, h2]
        · right; simp [lexLeB, lt_irrefl, h2]
      · right; simp [lexLeB, h]

theorem lexLeB_trans (x y z : List Char) (h1 : lexLeB x y = true) (h2 : lexLeB y z = true) :
    lexLeB x z = true := by
  induction x generalizing y z with
  | nil => rfl
  | cons a as ih =>
    cases y with
    | nil => simp [lexLeB] at h1
    | cons b bs =>
      cases z with
      | nil => simp [lexLeB] at h2
      | cons c cs =>
        rcases lt_trichotomy a b with hab | hab | hab
        · rcases lt_trichotomy b c with hbc | hbc | hbc
          · simp [lexLeB, lt_trans hab hbc]
          · subst hbc; simp [lexLeB, hab]
          · simp [lexLeB, hbc.asymm, hbc] at h2
        · subst hab
          rcases lt_trichotomy a c with hac | hac | hac
          · simp [lexLeB, hac]
          · subst hac
            simp only [lexLeB, lt_irrefl, if_false] at h1 h2 ⊢
            exact ih bs cs h1 h2
          · simp [lexLeB, hac.asymm, hac] at h2
        · simp [lexLeB, hab.asymm, hab] at h1

theorem lexLeB_antisymm (x y : List Char) (h1 : lexLeB x y = true) (h2 : lexLeB y x = true) :
    x = y := by
  induction x generalizing y with
  | nil =>
    cases y with
    | nil => rfl
    | cons b bs => simp [lexLeB] at h2
  | cons a as ih =>
    cases y with
    | nil => simp [lexLeB] at h1
    | cons b bs =>
      rcases lt_trichotomy a b with hab | hab | hab
      · simp [lexLeB, hab.asymm, hab] at h2
      · subst hab
        simp only [lexLeB, lt_irrefl, if_false] at h1 h2
        rw [ih bs h1 h2]
      · simp [lexLeB, hab.asymm, hab] at h1

instance : IsTotal (List Char) lexLe := ⟨lexLeB_total⟩

instance : IsTrans (List Char) lexLe := ⟨lexLeB_trans⟩

theorem rustDedup_mem {α : Type} [DecidableEq α] :
    ∀ (l : List α) (x : α), x ∈ rustDedup l ↔ x ∈ l
  | [], x => by simp [rustDedup]
  | [a], x => by simp [rustDedup]
  | a :: b :: t, x => by
    rw [rustDedup]
    by_cases hab : a = b
    · subst hab
      rw [if_pos rfl, rustDedup_mem (a :: t) x]
      simp only [List.mem_cons]
      tauto
    · rw [if_neg hab]
      simp [rustDedup_mem (b :: t) x]

theorem rustDedup_sorted_nodup {α : Type} [DecidableEq α] {r : α → α → Prop}
    (hanti : ∀ a b, r a b → r b a → a = b) :
    ∀ l : List α, l.Sorted r → (rustDedup l).Nodup
  | [], _ => by simp [rustDedup]
  | [a], _ => by simp [rustDedup]
  | a :: b :: t, hs => by
    rw [rustDedup]
    have hs1 : (b :: t).Sorted r := (List.sorted_cons.mp hs).2
    by_cases hab : a = b
    · subst hab
      rw [if_pos rfl]
      exact rustDedup_sorted_nodup hanti (a :: t) (List.sorted_cons.mp hs).2
    · rw [if_neg hab]
      refine List.nodup_cons.mpr ⟨?_, rustDedup_sorted_nodup hanti (b :: t) hs1⟩
      intro hmem
      have hmem2 : a ∈ b :: t := (rustDedup_mem _ _).mp hmem
      have hrab : r a b := (List.sorted_cons.mp hs).1 b (List.mem_cons_self _ _)
      rcases List.mem_cons.mp hmem2 with h | h
      · exact hab h
      · exact hab (hanti a b hrab ((List.sorted_cons.mp hs1).1 a h))

theorem uniqueCharNgrams_nodup (s : List Char) (minN maxN : ℕ) :
    (uniqueCharNgrams s minN maxN).Nodup := by
  unfold uniqueCharNgrams
  split
  · exact rustDedup_sorted_nodup (fun a b => lexLeB_antisymm a b) _
      (List.sorted_insertionSort lexLe _)
  · exact List.nodup_nil

theorem mem_rangeIncl (n lo hi : ℕ) : n ∈ rangeIncl lo hi ↔ lo ≤ n ∧ n ≤ hi := by
  simp only [rangeIncl, List.mem_range']
  constructor
  · rintro ⟨i, hi2, rfl⟩
    omega
  · rintro ⟨h1, h2⟩
    exact ⟨n - lo, by omega, by omega⟩

theorem mem_windows (t : List Char) (n : ℕ) (l : List Char) :
    t ∈ windows n l ↔
      1 ≤ n ∧ n ≤ l.length ∧ ∃ i, i + n ≤ l.length ∧ t = (l.drop i).take n := by
  unfold windows
  split_ifs with h
  · simp only [List.mem_map, List.mem_range]
    constructor
    · rintro ⟨i, hi, rfl⟩
      exact ⟨h.1, h.2, i, by omega, rfl⟩
    · rintro ⟨-, -, i, hi, rfl⟩
      exact ⟨i, by omega, rfl⟩
  · simp only [List.not_mem_nil, false_iff]
    rintro ⟨hc1, hc2, -⟩
    exact h ⟨hc1, hc2⟩

theorem mem_uniqueCharNgrams (t : List Char) (s : List Char) (minN maxN : ℕ) :
    t ∈ uniqueCharNgrams s minN maxN ↔
      s ≠ [] ∧ ∃ n, min minN s.length ≤ n ∧ n ≤ min maxN s.length ∧ t ∈ windows n s := by
  unfold uniqueCharNgrams
  split_ifs with h
  · rw [rustDedup_mem, (List.perm_insertionSort lexLe _).mem_iff]
    simp only [List.mem_flatMap, mem_rangeIncl]
    constructor
    · rintro ⟨n, ⟨h1, h2⟩, h3⟩
      exact ⟨h, n, h1, h2, h3⟩
    · rintro ⟨-, n, h1, h2, h3⟩
      exact ⟨n, ⟨h1, h2⟩, h3⟩
  · simp only [List.not_mem_nil, false_iff, not_and]
    intro hc
    exact absurd hc h

/-- `push_with_data_and_dict` records in the dictionary exactly the
tokens of `observedTokens`, each via one `observe` call at the new
logical index. -/
theorem push_records_observedTokens {D : Type} (L : ℕ) (w : ChatWindow D) (chat : List Char)
    (data : Option D) (dict : MemoryDictionary (List Char)) :
    (ChatWindow.pushWithDataAndDict L w chat data dict).2 =
      (observedTokens chat w.ngram_range.1 w.ngram_range.2).foldl
        (fun d t => MemoryDictionary.observe L d t (w.last_chat_idx + 1)) dict :=
  rfl

/-- Claim C8 amended.  For a pushed message, the tokens recorded in the
dictionary are exactly the distinct character n-grams of the normalized
message whose lengths lie in the *clamped* inclusive range
`[min(min_n, len), min(max_n, len)]` (where `len` is the normalized
message's length), each recorded exactly once (the token list is
duplicate-free).  In particular a nonempty message shorter than `min_n`
still contributes its whole text as one n-gram below the configured
minimum. -/
theorem c8_recorded_tokens (chat : List Char) (minN maxN : ℕ) (h1 : 1 ≤ minN) :
    (observedTokens chat minN maxN).Nodup ∧
      ∀ t : List Char, t ∈ observedTokens chat minN maxN ↔
        normalize chat ≠ [] ∧
          ∃ n i, min minN (normalize chat).length ≤ n ∧
            n ≤ min maxN (normalize chat).length ∧
            i + n ≤ (normalize chat).length ∧ t = ((normalize chat).drop i).take n := by
  refine ⟨uniqueCharNgrams_nodup _ minN maxN, fun t => ?_⟩
  unfold observedTokens
  rw [mem_uniqueCharNgrams]
  constructor
  · rintro ⟨hne, n, ha, hb, hw⟩
    obtain ⟨-, -, i, hi, rfl⟩ := (mem_windows _ _ _).mp hw
    exact ⟨hne, n, i, ha, hb, hi, rfl⟩
  · rintro ⟨hne, n, i, ha, hb, hi, rfl⟩
    have hlen : 1 ≤ (normalize chat).length := List.length_pos.mpr hne
    refine ⟨hne, n, ha, hb, (mem_windows _ _ _).mpr ⟨by omega, by omega, i, hi, rfl⟩⟩

/-- Witness for the amended C8 at message "ab" with range [1,2]. -/
theorem c8_recorded_tokens_witness :
    1 ≤ 1 ∧
      ((observedTokens ['a', 'b'] 1 2).Nodup ∧
        ∀ t : List Char, t ∈ observedTokens ['a', 'b'] 1 2 ↔
          normalize ['a', 'b'] ≠ [] ∧
            ∃ n i, min 1 (normalize ['a', 'b']).length ≤ n ∧
              n ≤ min 2 (normalize ['a', 'b']).length ∧
              i + n ≤ (normalize ['a', 'b']).length ∧
              t = ((normalize ['a', 'b']).drop i).take n) :=
  ⟨by decide, c8_recorded_tokens ['a', 'b'] 1 2 (by decide)⟩

/-- Claim C8 counterexample.  With the configured range `[2, 4]`, pushing
the one-character message "a" records the token "a" of length 1, which
does not lie in `[2, 4]`: `unique_char_ngrams` clamps the n range to the
message length. -/
theorem c8_short_message_token_below_range :
    observedTokens ['a'] 2 4 = [['a']] ∧ ¬ 2 ≤ ([('a' : Char)] : List Char).length :=
  ⟨by decide, by decide⟩

/-! ## Poisson tail: basic bounds (claims C4, C6, C7) -/

theorem poissonCDF_nonneg (lam : ℝ) (hl : 0 ≤ lam) (n : ℕ) : 0 ≤ poissonCDF lam n := by
  unfold poissonCDF
  apply mul_nonneg (Real.exp_pos _).le
  apply Finset.sum_nonneg
  intro i _
  positivity

theorem poissonCDF_le_one (lam : ℝ) (hl : 0 ≤ lam) (n : ℕ) : poissonCDF lam n ≤ 1 := by
  unfold poissonCDF
  have h1 : ∑ i ∈ Finset.range (n + 1), lam ^ i / (Nat.factorial i : ℝ) ≤ Real.exp lam :=
    Real.sum_le_exp_of_nonneg hl (n + 1)
  calc Real.exp (-lam) * ∑ i ∈ Finset.range (n + 1), lam ^ i / (Nat.factorial i : ℝ)
      ≤ Real.exp (-lam) * Real.exp lam :=
        mul_le_mul_of_nonneg_left h1 (Real.exp_pos _).le
    _ = 1 := by rw [← Real.exp_add]; simp

theorem exp_neg_sq_eq : (fun t : ℝ => Real.exp (-t ^ 2)) = fun t : ℝ => Real.exp (-1 * t ^ 2) := by
  funext t
  norm_num

theorem integrable_exp_neg_sq : MeasureTheory.Integrable (fun t : ℝ => Real.exp (-t ^ 2)) := by
  rw [exp_neg_sq_eq]
  exact integrable_exp_neg_mul_sq one_pos

theorem integral_exp_neg_sq_total : ∫ t : ℝ, Real.exp (-t ^ 2) = Real.sqrt Real.pi := by
  rw [exp_neg_sq_eq]
  simpa using integral_gaussian 1

theorem erfc_le_two (x : ℝ) : erfc x ≤ 2 := by
  unfold erfc
  have h1 : ∫ t in Set.Ioi x, Real.exp (-t ^ 2) ≤ Real.sqrt Real.pi := by
    rw [← integral_exp_neg_sq_total]
    exact MeasureTheory.setIntegral_le_integral integrable_exp_neg_sq
      (Filter.Eventually.of_forall fun t => (Real.exp_pos _).le)
  have hpi : 0 < Real.sqrt Real.pi := Real.sqrt_pos.mpr Real.pi_pos
  calc 2 / Real.sqrt Real.pi * ∫ t in Set.Ioi x, Real.exp (-t ^ 2)
      ≤ 2 / Real.sqrt Real.pi * Real.sqrt Real.pi :=
        mul_le_mul_of_nonneg_left h1 (by positivity)
    _ = 2 := by field_simp

theorem erfc_nonneg (x : ℝ) : 0 ≤ erfc x := by
  unfold erfc
  apply mul_nonneg (by positivity)
  apply MeasureTheory.setIntegral_nonneg measurableSet_Ioi
  intro t _
  positivity

theorem poissonSF_eq_tail (lam : ℝ) (n : ℕ) :
    poissonSF lam n =
      tsum (fun i : ℕ =>
        Real.exp (-lam) * (lam ^ (i + (n + 1)) / (Nat.factorial (i + (n + 1)) : ℝ))) := by
  have hsum : Summable (fun i : ℕ => Real.exp (-lam) * (lam ^ i / (Nat.factorial i : ℝ))) :=
    (Real.summable_pow_div_factorial lam).mul_left _
  have hsplit := sum_add_tsum_nat_add
    (f := fun i : ℕ => Real.exp (-lam) * (lam ^ i / (Nat.factorial i : ℝ))) (n + 1) hsum
  have htotal : tsum (fun i : ℕ => Real.exp (-lam) * (lam ^ i / (Nat.factorial i : ℝ))) = 1 := by
    rw [tsum_mul_left]
    have hexp : tsum (fun i : ℕ => lam ^ i / (Nat.factorial i : ℝ)) = Real.exp lam := by
      rw [Real.exp_eq_exp_ℝ, NormedSpace.exp_eq_tsum_div]
    rw [hexp, ← Real.exp_add]
    simp
  rw [htotal] at hsplit
  unfold poissonSF poissonCDF
  rw [Finset.mul_sum]
  linarith [hsplit]

/-- Claim C4 amended.  For `0 ≤ k` and `0 < λ < 20` the exact branch
returns `-ln(max(1e-308, P(X > ⌈k⌉)))`, i.e. it uses the *strict* tail
`P(X ≥ ⌈k⌉ + 1)` (statrs's `sf` is `1 - cdf`), not `P(X ≥ ⌈k⌉)`; written
out, the tail is the series `Σ_{i≥⌈k⌉+1} e^{-λ} λ^i/i!`. -/
theorem c4_exact_branch_is_strict_tail (k lam : ℝ) (hk : 0 ≤ k) (h0 : 0 < lam)
    (h20 : lam < 20) :
    neg_ln_poisson_tail k lam =
      -Real.log (max 1e-308
        (tsum (fun i : ℕ =>
          Real.exp (-lam) * (lam ^ (i + (⌈k⌉₊ + 1)) / (Nat.factorial (i + (⌈k⌉₊ + 1)) : ℝ))))) := by
  rw [neg_ln_poisson_tail, if_pos h20, poissonSF_eq_tail lam ⌈k⌉₊]

/-- Witness for the amended C4 at `k = 0`, `λ = 1`. -/
theorem c4_exact_branch_is_strict_tail_witness :
    ((0 : ℝ) ≤ 0 ∧ (0 : ℝ) < 1 ∧ (1 : ℝ) < 20) ∧
      neg_ln_poisson_tail 0 1 =
        -Real.log (max 1e-308
          (tsum (fun i : ℕ =>
            Real.exp (-(1 : ℝ)) *
              ((1 : ℝ) ^ (i + (⌈(0 : ℝ)⌉₊ + 1)) / (Nat.factorial (i + (⌈(0 : ℝ)⌉₊ + 1)) : ℝ))))) :=
  ⟨⟨le_refl 0, by norm_num, by norm_num⟩,
    c4_exact_branch_is_strict_tail 0 1 (le_refl 0) (by norm_num) (by norm_num)⟩

/-- Claim C4 counterexample.  `surprise(0, 1)` is strictly positive, not 0
as the claim's `-ln P(X ≥ 0) = 0` requires: the exact branch evaluates
`-ln(1 - e^{-1}) ≈ 0.459`. -/
theorem c4_surprise_at_zero_not_zero :
    0 < neg_ln_poisson_tail 0 1 ∧ neg_ln_poisson_tail 0 1 ≠ 0 := by
  have h1 : neg_ln_poisson_tail 0 1 = -Real.log (max 1e-308 (1 - Real.exp (-1))) := by
    rw [neg_ln_poisson_tail, if_pos (by norm_num)]
    have h2 : poissonSF 1 ⌈(0 : ℝ)⌉₊ = 1 - Real.exp (-1) := by
      rw [Nat.ceil_zero]
      unfold poissonSF poissonCDF
      norm_num
    rw [h2]
  have he2 : (2 : ℝ) ≤ Real.exp 1 := by nlinarith [Real.exp_one_gt_d9]
  have hei : Real.exp (-1 : ℝ) ≤ 1 / 2 := by
    rw [Real.exp_neg]
    rw [inv_le (Real.exp_pos 1) (by norm_num : (0 : ℝ) < 1 / 2)]
    norm_num
    linarith
  have hepos : (0 : ℝ) < Real.exp (-1) := Real.exp_pos _
  have hpos : (0 : ℝ) < 1 - Real.exp (-1) := by linarith
  have hmax : max (1e-308 : ℝ) (1 - Real.exp (-1)) = 1 - Real.exp (-1) :=
    max_eq_right (by linarith)
  have hlog : Real.log (1 - Real.exp (-1)) < 0 := Real.log_neg hpos (by linarith)
  constructor
  · rw [h1, hmax]
    linarith
  · rw [h1, hmax]
    intro hc
    rw [neg_eq_zero] at hc
    linarith [hc ▸ hlog]

/-! ## Claim C6: nonnegativity of the surprise function -/

/-- Core estimate for the saddle-point regime: with `λ ≥ 20`, `s = k/λ > 1`
and `s - 1 > 4/√λ`, the exponent `A = s - 1 - ln s` satisfies `A ≥ 0` and
`t² = 2λA ≥ 4`. -/
theorem saddle_core (lam s : ℝ) (hlam : 20 ≤ lam) (hs : 1 < s)
    (hu : 4 / Real.sqrt lam < s - 1) :
    0 ≤ s - 1 - Real.log s ∧ 4 ≤ 2 * lam * (s - 1 - Real.log s) := by
  have hlam0 : (0 : ℝ) < lam := by linarith
  have hsl : (0 : ℝ) < Real.sqrt lam := Real.sqrt_pos.mpr hlam0
  have hs0 : (0 : ℝ) < s := by linarith
  have hss : (0 : ℝ) < Real.sqrt s := Real.sqrt_pos.mpr hs0
  have hsq : Real.sqrt s ^ 2 = s := Real.sq_sqrt hs0.le
  have hsq1 : 1 ≤ Real.sqrt s := by nlinarith
  have hlog2 : Real.log s ≤ 2 * (Real.sqrt s - 1) := by
    have h1 : Real.log (Real.sqrt s) ≤ Real.sqrt s - 1 := Real.log_le_sub_one_of_pos hss
    have h2 : Real.log (Real.sqrt s) = Real.log s / 2 := Real.log_sqrt hs0.le
    linarith
  have hA : (Real.sqrt s - 1) ^ 2 ≤ s - 1 - Real.log s := by nlinarith
  have hA0 : 0 ≤ s - 1 - Real.log s := by nlinarith [sq_nonneg (Real.sqrt s - 1)]
  refine ⟨hA0, ?_⟩
  have hu0 : (0 : ℝ) < s - 1 := by linarith
  have hlsq : Real.sqrt lam ^ 2 = lam := Real.sq_sqrt hlam0.le
  have hlamu : 16 < lam * (s - 1) ^ 2 := by
    have h3 : 4 < (s - 1) * Real.sqrt lam := by
      rw [div_lt_iff hsl] at hu
      linarith
    nlinarith
  have hfac : s - 1 ≤ 2 * Real.sqrt s * (Real.sqrt s - 1) := by
    nlinarith [sq_nonneg (Real.sqrt s - 1)]
  have hfac2 : (s - 1) ^ 2 ≤ 4 * s * (Real.sqrt s - 1) ^ 2 := by
    have h4 := mul_self_le_mul_self hu0.le hfac
    nlinarith
  have h8s : 8 * s ≤ lam * (s - 1) ^ 2 := by
    rcases le_or_lt s 2 with h2 | h2
    · linarith
    · have ha : s / 2 ≤ s - 1 := by linarith
      have hb : (1 : ℝ) ≤ s - 1 := by linarith
      have hc : s / 2 * 1 ≤ (s - 1) * (s - 1) := mul_le_mul ha hb (by norm_num) (by linarith)
      nlinarith
  have hd : lam * (s - 1) ^ 2 ≤ lam * (4 * s * (Real.sqrt s - 1) ^ 2) :=
    mul_le_mul_of_nonneg_left hfac2 hlam0.le
  have hkey : 2 ≤ lam * (Real.sqrt s - 1) ^ 2 := by nlinarith
  nlinarith

/-- Claim C6.  For all `k ≥ 0` and `λ > 0`, the surprise function is
nonnegative in each of its three regimes. -/
theorem c6_surprise_nonneg (k lam : ℝ) (hk : 0 ≤ k) (hlam : 0 < lam) :
    0 ≤ neg_ln_poisson_tail k lam := by
  rw [neg_ln_poisson_tail]
  split_ifs with h20 hreg
  · have hp1 : poissonSF lam ⌈k⌉₊ ≤ 1 := by
      unfold poissonSF
      have := poissonCDF_nonneg lam hlam.le ⌈k⌉₊
      linarith
    have hmaxpos : (0 : ℝ) < max 1e-308 (poissonSF lam ⌈k⌉₊) :=
      lt_max_of_lt_left (by norm_num)
    have hmax1 : max (1e-308 : ℝ) (poissonSF lam ⌈k⌉₊) ≤ 1 := max_le (by norm_num) hp1
    have := Real.log_nonpos hmaxpos.le hmax1
    linarith
  · have herfc := erfc_le_two ((k - lam + 0.5) / Real.sqrt lam * (Real.sqrt 2)⁻¹)
    have hp1 : 0.5 * erfc ((k - lam + 0.5) / Real.sqrt lam * (Real.sqrt 2)⁻¹) ≤ 1 := by
      linarith
    have hmaxpos : (0 : ℝ) <
        max 1e-308 (0.5 * erfc ((k - lam + 0.5) / Real.sqrt lam * (Real.sqrt 2)⁻¹)) :=
      lt_max_of_lt_left (by norm_num)
    have hmax1 : max (1e-308 : ℝ)
        (0.5 * erfc ((k - lam + 0.5) / Real.sqrt lam * (Real.sqrt 2)⁻¹)) ≤ 1 :=
      max_le (by norm_num) hp1
    have := Real.log_nonpos hmaxpos.le hmax1
    linarith
  · push_neg at hreg
    obtain ⟨hkl, habs⟩ := hreg
    have hlam20 : 20 ≤ lam := not_lt.mp h20
    have hsl : (0 : ℝ) < Real.sqrt lam := Real.sqrt_pos.mpr hlam
    have hlsq : Real.sqrt lam ^ 2 = lam := Real.sq_sqrt hlam.le
    rw [abs_of_nonneg (by linarith : (0 : ℝ) ≤ k - lam)] at habs
    have hs1 : 1 < k / lam := by
      rw [lt_div_iff hlam]
      nlinarith [Real.sqrt_nonneg lam]
    have hu : 4 / Real.sqrt lam < k / lam - 1 := by
      have he : k / lam - 1 = (k - lam) / lam := by field_simp
      rw [he, div_lt_div_iff hsl hlam]
      nlinarith [mul_lt_mul_of_pos_right habs hsl]
    obtain ⟨hA0, ht4⟩ := saddle_core lam (k / lam) hlam20 hs1 hu
    have ht2 : Real.sqrt (2 * lam * (k / lam - 1 - Real.log (k / lam))) ^ 2 =
        2 * lam * (k / lam - 1 - Real.log (k / lam)) :=
      Real.sq_sqrt (by nlinarith)
    have ht0 : 0 ≤ Real.sqrt (2 * lam * (k / lam - 1 - Real.log (k / lam))) :=
      Real.sqrt_nonneg _
    have htge : 2 ≤ Real.sqrt (2 * lam * (k / lam - 1 - Real.log (k / lam))) := by nlinarith
    have htpos : (0 : ℝ) < Real.sqrt (2 * lam * (k / lam - 1 - Real.log (k / lam))) := by
      linarith
    have hsinv0 : (0 : ℝ) < 1 / (k / lam) := by positivity
    have hone : (-1 : ℝ) / Real.sqrt (2 * lam * (k / lam - 1 - Real.log (k / lam))) ≤
        (1 / (k / lam) - 1) / Real.sqrt (2 * lam * (k / lam - 1 - Real.log (k / lam))) := by
      apply (div_le_div_right htpos).mpr
      linarith
    have hinvt : 1 / Real.sqrt (2 * lam * (k / lam - 1 - Real.log (k / lam))) ≤ 1 / 2 :=
      one_div_le_one_div_of_le (by norm_num) htge
    have hw1 : 1 ≤ Real.sqrt (2 * lam * (k / lam - 1 - Real.log (k / lam))) +
        (1 / (k / lam) - 1) / Real.sqrt (2 * lam * (k / lam - 1 - Real.log (k / lam))) := by
      have hneg : (-1 : ℝ) / Real.sqrt (2 * lam * (k / lam - 1 - Real.log (k / lam))) =
          -(1 / Real.sqrt (2 * lam * (k / lam - 1 - Real.log (k / lam)))) := by
        ring
      rw [hneg] at hone
      linarith
    have hlogw := Real.log_nonneg hw1
    have hlog2pk : 0 ≤ Real.log (2 * Real.pi * k) := by
      apply Real.log_nonneg
      nlinarith [Real.pi_gt_three]
    have hlA : 0 ≤ lam * (k / lam - 1 - Real.log (k / lam)) := mul_nonneg hlam.le hA0
    linarith

/-- Witness for C6 at `k = 1`, `λ = 1`. -/
theorem c6_surprise_nonneg_witness :
    ((0 : ℝ) ≤ 1 ∧ (0 : ℝ) < 1) ∧ 0 ≤ neg_ln_poisson_tail 1 1 :=
  ⟨⟨by norm_num, by norm_num⟩, c6_surprise_nonneg 1 1 (by norm_num) (by norm_num)⟩

/-! ## Gaussian tail upper bound and numeric exponential bounds (C7) -/

end ChatSpike
